import Mathlib

/-!
# Verification of the resumable sentence-alignment controller (`align_corpus`)

Shallow embedding of `src/align.py`.  The controller reads a line-delimited
input store of work units ("talks"), derives a completion ledger from the
line-delimited output store, skips units before a positional `offset` and
units whose id is already in the ledger, invokes the external alignment
collaborator (Bertalign) on the remaining units, appends one output record
per aligned sentence pair, and stops once the number of ledger entries
reaches `initial_done + no_talks`.

Modelling decisions:
* A line of the input store either deserializes into a `Talk` or is
  `malformed`.  `malformed` covers exactly the failures raised at parse
  time, before the ledger check: invalid JSON, or a missing `TALK-ID` /
  `TALK-NAME` field (`src/align.py:55-57`).  A line with valid JSON and
  both those fields but no `TRANSCRIPT` mapping (or missing particular
  languages) deserializes into a `Talk` whose `transcript` simply lacks
  those keys: the code only touches `TRANSCRIPT` at `src/align.py:62`,
  once the unit is selected for processing, so such a line is skipped
  silently when its id is already completed.  An output line is either a
  record or `malformed` (invalid JSON or missing `TALK-ID`, both raised
  eagerly at `src/align.py:45`).
* Python `KeyError` on `talk['TRANSCRIPT'][lang]` — whether the whole
  `TRANSCRIPT` mapping or just the language key is absent — is
  `missingLanguage`; parse-time failures are `malformedRecord`.
* The Bertalign collaborator is a black-box parameter
  `alignFn : String → String → List (String × String)`; the tuning
  parameters (`max_align`, `top_k`, `win`, `skip`, `margin`, `len_penalty`,
  `is_split`) are passed through verbatim to it and are absorbed into that
  function, since they never influence the controller's logic.
* The run result records, besides the final in-memory `aligned_talks` set
  (or the raised error), the trace of records appended to the output file
  and of the units on which the collaborator was invoked; these are the
  observables of the run (file contents and collaborator calls).
-/

deriving instance DecidableEq for Except

namespace Align

/-- Errors the controller can raise. -/
inductive AlignError where
  | malformedRecord
  | missingLanguage
deriving DecidableEq, Repr

/-- A work unit, as deserialized from one input line:
`TALK-ID`, `TALK-NAME`, `TRANSCRIPT` (a mapping language code ↦ document;
a line with no `TRANSCRIPT` key at all parses into the empty mapping, since
the field is only read once the unit is selected), and the optional
categorical attribute (`GENDER`) carried by the second input-schema
variant. -/
structure Talk where
  id : Nat
  name : String
  transcript : List (String × String)
  attr : Option String
deriving DecidableEq, Repr

/-- One line of the input store: either it deserializes into a `Talk` or it
is malformed.  `malformed` means a parse-time failure only: bad
serialization, or a missing `TALK-ID` or `TALK-NAME` — the fields read at
`src/align.py:55-57` before the ledger check.  A line lacking only the
`TRANSCRIPT` mapping (or some languages) is `good`, with those keys absent
from the `Talk`'s `transcript`: `TRANSCRIPT` is first touched at
`src/align.py:62`, after the unit has been selected for processing. -/
inductive InLine where
  | malformed
  | good (t : Talk)
deriving DecidableEq, Repr

/-- One output record: the JSON object written per aligned pair at
`src/align.py:82-87` has keys `TALK-ID`, `TALK-NAME`, the uppercased source
language code and the uppercased target language code; `attr` holds the
optional categorical attribute (the `src/align.py` variant writes none). -/
structure OutRecord where
  unit_id : Nat
  unit_name : String
  srcKey : String
  srcText : String
  tgtKey : String
  tgtText : String
  attr : Option String
deriving DecidableEq, Repr

/-- One line of the output store: a record, or a malformed line (invalid
serialization or missing `TALK-ID`). -/
inductive OutLine where
  | malformed
  | record (r : OutRecord)
deriving DecidableEq, Repr

/-- Python dict lookup `mapping[lang]`, returning `none` on `KeyError`. -/
def getLang : List (String × String) → String → Option String
  | [], _ => none
  | (k, v) :: rest, l => if k = l then some v else getLang rest l

/-- Python `set.add`: insert an element unless already present.  List-as-set
representation; `length` of a list built only by `insertSet` from a
duplicate-free list is the set's cardinality. -/
def insertSet (x : Nat) (s : List Nat) : List Nat :=
  if x ∈ s then s else x :: s

/-- `touch output_file` when absent (`src/align.py:37-38`): an absent store
is created empty; the contents seen by the rest of the run. -/
def ensureStore : Option (List OutLine) → List OutLine
  | none => []
  | some ls => ls

/-- `src/align.py:40-41`: `wc -l` counts the store's lines (every record is
written with a trailing newline), and `no_talks` defaults to that count when
not given. -/
def effectiveQuota (out0 : List OutLine) : Option Nat → Nat
  | none => out0.length
  | some k => k

/-- Completion-ledger accumulation over the output lines in file order
(`src/align.py:44-45`): collect each line's `TALK-ID` into a set, raising
`malformedRecord` at the first line that fails to deserialize or lacks the
id field. -/
def loadLedgerAux (acc : List Nat) : List OutLine → Except AlignError (List Nat)
  | [] => .ok acc
  | .malformed :: _ => .error .malformedRecord
  | .record r :: rest => loadLedgerAux (insertSet r.unit_id acc) rest

/-- `aligned_talks = set(json.loads(line)['TALK-ID'] for line in f)`. -/
def loadLedger (ls : List OutLine) : Except AlignError (List Nat) :=
  loadLedgerAux [] ls

/-- The alignment collaborator: two documents in, ordered aligned sentence
pairs out (`Bertalign(...).align_sents(); get_sentences()`). -/
def AlignFn : Type := String → String → List (String × String)

/-- Controller configuration: language codes and positional offset. -/
structure Config where
  src_lang : String
  tgt_lang : String
  offset : Nat
deriving DecidableEq, Repr

/-- The output record written for one aligned pair (`src/align.py:82-87`):
unit id and name, and the pair's texts under the uppercased language codes.
The `src/align.py` schema variant writes no attribute key. -/
def mkOutRecord (cfg : Config) (t : Talk) (pr : String × String) : OutRecord :=
  { unit_id := t.id
    unit_name := t.name
    srcKey := cfg.src_lang.toUpper
    srcText := pr.1
    tgtKey := cfg.tgt_lang.toUpper
    tgtText := pr.2
    attr := none }

/-- The per-unit batch write (`src/align.py:80-87`): one record per pair, in
pair order, appended in a single open-append-close of the output file. -/
def mkOutRecords (cfg : Config) (t : Talk) (pairs : List (String × String)) :
    List OutRecord :=
  pairs.map (mkOutRecord cfg t)

/-- Trace entry for one collaborator invocation: the 0-based input position,
the unit, and the two documents extracted for the configured languages. -/
structure ProcEntry where
  pos : Nat
  talk : Talk
  srcDoc : String
  tgtDoc : String
deriving DecidableEq, Repr

/-- Result of (the remainder of) a run: records appended to the output file
in order, collaborator invocations in order, and the final in-memory
`aligned_talks` set — or the error that aborted the run.  On an error the
`written`/`processed` prefixes still stand: the file appends already
happened when the exception is raised. -/
structure RunResult where
  written : List OutRecord
  processed : List ProcEntry
  outcome : Except AlignError (List Nat)
deriving DecidableEq, Repr

/-- The controller loop (`src/align.py:51-92`), processing the remaining
input lines from 0-based position `idx` with current ledger `aligned`:
skip positions `< offset` (before any parsing); parse the line (error
`malformedRecord` on failure); skip ids already in the ledger; extract the
two language documents (error `missingLanguage` on a missing key); invoke
the collaborator; append one record per pair; add the id to the ledger;
break once the ledger size reaches `initialDone + noTalks`. -/
def runLoop (cfg : Config) (alignFn : AlignFn) (initialDone noTalks : Nat) :
    Nat → List Nat → List InLine → RunResult
  | _, aligned, [] => ⟨[], [], .ok aligned⟩
  | idx, aligned, line :: rest =>
    if idx < cfg.offset then
      runLoop cfg alignFn initialDone noTalks (idx + 1) aligned rest
    else
      match line with
      | .malformed => ⟨[], [], .error .malformedRecord⟩
      | .good t =>
        if t.id ∈ aligned then
          runLoop cfg alignFn initialDone noTalks (idx + 1) aligned rest
        else
          match getLang t.transcript cfg.src_lang with
          | none => ⟨[], [], .error .missingLanguage⟩
          | some src =>
            match getLang t.transcript cfg.tgt_lang with
            | none => ⟨[], [], .error .missingLanguage⟩
            | some tgt =>
              let recs := mkOutRecords cfg t (alignFn src tgt)
              let aligned' := insertSet t.id aligned
              if initialDone + noTalks ≤ aligned'.length then
                ⟨recs, [⟨idx, t, src, tgt⟩], .ok aligned'⟩
              else
                let r := runLoop cfg alignFn initialDone noTalks (idx + 1) aligned' rest
                ⟨recs ++ r.written, ⟨idx, t, src, tgt⟩ :: r.processed, r.outcome⟩

/-- Full result of one `align_corpus` run: the final contents of the output
store (initial contents plus the records appended before the run ended,
normally or by error) and the run trace. -/
structure CorpusResult where
  store : List OutLine
  run : RunResult
deriving DecidableEq, Repr

/-- `align_corpus` (`src/align.py:7-92`): ensure the output store exists,
take the effective quota (`no_talks` or, by default, the store's current
line count), load the completion ledger from the store (aborting on a
malformed output line), then run the controller loop from position 0. -/
def align_corpus (cfg : Config) (alignFn : AlignFn) (input : List InLine)
    (output : Option (List OutLine)) (no_talks : Option Nat) : CorpusResult :=
  let out0 := ensureStore output
  let quota := effectiveQuota out0 no_talks
  match loadLedger out0 with
  | .error e => ⟨out0, ⟨[], [], .error e⟩⟩
  | .ok aligned0 =>
    let r := runLoop cfg alignFn aligned0.length quota 0 aligned0 input
    ⟨out0 ++ r.written.map OutLine.record, r⟩

/-- Modelled from the spec: the repository's second controller variant (the
`TRANSCRIPTS`/`GENDER` input schema with the `include_attribute` toggle,
spec §6) is not present under `src/`; per §4.4 and §8, the Result Writer of
that variant builds the same record as `mkOutRecord` and additionally
carries the unit's categorical attribute unchanged exactly when the toggle
is enabled. -/
def mkOutRecordAttr (include_attribute : Bool) (cfg : Config) (t : Talk)
    (pr : String × String) : OutRecord :=
  { unit_id := t.id
    unit_name := t.name
    srcKey := cfg.src_lang.toUpper
    srcText := pr.1
    tgtKey := cfg.tgt_lang.toUpper
    tgtText := pr.2
    attr := if include_attribute then t.attr else none }

/-- Modelled from the spec: the per-unit batch write of the attribute-aware
variant (one record per aligned pair, spec §4.4). -/
def mkOutRecordsAttr (include_attribute : Bool) (cfg : Config) (t : Talk)
    (pairs : List (String × String)) : List OutRecord :=
  pairs.map (mkOutRecordAttr include_attribute cfg t)

-- Concrete sanity data for examples and witnesses.

/-- A concrete configuration: default languages, offset 0. -/
def cfg0 : Config := ⟨"en", "es", 0⟩

/-- A concrete work unit with both language documents. -/
def t1 : Talk := ⟨1, "talk1", [("en", "hello"), ("es", "hola")], some "F"⟩

/-- A second concrete work unit. -/
def t2 : Talk := ⟨2, "talk2", [("en", "bye"), ("es", "adios")], some "M"⟩

/-- A third concrete work unit. -/
def t3 : Talk := ⟨3, "talk3", [("en", "yes"), ("es", "si")], none⟩

/-- A concrete work unit lacking the target-language document. -/
def tBad : Talk := ⟨4, "talk4", [("en", "alone")], none⟩

/-- A concrete work unit as parsed from a line with valid serialization and
both parse-time fields but no `TRANSCRIPT` mapping at all: its documents
mapping is empty. -/
def tNoDocs : Talk := ⟨5, "talk5", [], none⟩

/-- A concrete output record marking unit 5 as completed. -/
def rec5 : OutRecord := ⟨5, "talk5", "EN", "x", "ES", "y", none⟩

/-- A concrete output record as written for unit `t1`. -/
def rec1 : OutRecord := ⟨1, "talk1", "EN", "hello", "ES", "hola", none⟩

/-- A concrete collaborator producing one pair per invocation. -/
def f1 : AlignFn := fun s t => [(s, t)]

/-- A concrete collaborator producing no pairs at all. -/
def f0 : AlignFn := fun _ _ => []

example :
    (align_corpus cfg0 f1 [.good t1, .good t2] (some []) (some 5)).run.outcome
      = .ok [2, 1] := by decide

example :
    (align_corpus cfg0 f1 [.good t1, .good t2] (some []) (some 1)).run.processed.length
      = 1 := by decide

example :
    (align_corpus cfg0 f1 [.good t1, .good t2] (some []) none).run.processed.length
      = 1 := by decide

example :
    (align_corpus ⟨"en", "es", 1⟩ f1 [.malformed, .good t2] (some []) (some 5)).run.outcome
      = .ok [2] := by decide

/-! ## Basic lemmas about the set and ledger primitives -/

theorem mem_insertSet {y x : Nat} {s : List Nat} :
    y ∈ insertSet x s ↔ y = x ∨ y ∈ s := by
  by_cases h : x ∈ s
  · simp only [insertSet, if_pos h]
    constructor
    · exact Or.inr
    · rintro (rfl | hy) <;> assumption
  · simp [insertSet, if_neg h]

theorem insertSet_of_not_mem {x : Nat} {s : List Nat} (h : x ∉ s) :
    insertSet x s = x :: s := by
  simp [insertSet, h]

theorem insertSet_nodup {x : Nat} {s : List Nat} (h : s.Nodup) :
    (insertSet x s).Nodup := by
  by_cases hx : x ∈ s
  · simpa [insertSet, hx] using h
  · rw [insertSet_of_not_mem hx]
    exact List.nodup_cons.mpr ⟨hx, h⟩

theorem loadLedgerAux_ok_mem {acc : List Nat} {ls : List OutLine} {s : List Nat}
    (h : loadLedgerAux acc ls = .ok s) :
    ∀ x, x ∈ s ↔ x ∈ acc ∨ ∃ r, OutLine.record r ∈ ls ∧ r.unit_id = x := by
  induction ls generalizing acc with
  | nil =>
    simp only [loadLedgerAux, Except.ok.injEq] at h
    subst h
    simp
  | cons l rest ih =>
    cases l with
    | malformed => simp [loadLedgerAux] at h
    | record r =>
      intro x
      have h' : loadLedgerAux (insertSet r.unit_id acc) rest = .ok s := h
      rw [ih h' x]
      constructor
      · rintro (hx | ⟨r', hr', rfl⟩)
        · rcases mem_insertSet.mp hx with rfl | hx
          · exact Or.inr ⟨r, List.mem_cons_self _ _, rfl⟩
          · exact Or.inl hx
        · exact Or.inr ⟨r', List.mem_cons_of_mem _ hr', rfl⟩
      · rintro (hx | ⟨r', hr', rfl⟩)
        · exact Or.inl (mem_insertSet.mpr (Or.inr hx))
        · rcases List.mem_cons.mp hr' with heq | hmem
          · injection heq with heq'
            subst heq'
            exact Or.inl (mem_insertSet.mpr (Or.inl rfl))
          · exact Or.inr ⟨r', hmem, rfl⟩

theorem loadLedgerAux_ok_nodup {acc : List Nat} {ls : List OutLine} {s : List Nat}
    (hacc : acc.Nodup) (h : loadLedgerAux acc ls = .ok s) : s.Nodup := by
  induction ls generalizing acc with
  | nil =>
    simp only [loadLedgerAux, Except.ok.injEq] at h
    subst h
    exact hacc
  | cons l rest ih =>
    cases l with
    | malformed => simp [loadLedgerAux] at h
    | record r => exact ih (insertSet_nodup hacc) h

theorem loadLedgerAux_of_all_record {acc : List Nat} {ls : List OutLine}
    (h : ∀ l ∈ ls, ∃ r, l = OutLine.record r) :
    ∃ s, loadLedgerAux acc ls = .ok s := by
  induction ls generalizing acc with
  | nil => exact ⟨acc, rfl⟩
  | cons l rest ih =>
    obtain ⟨r, rfl⟩ := h l (List.mem_cons_self l rest)
    exact ih fun l' hl' => h l' (List.mem_cons_of_mem _ hl')

theorem loadLedgerAux_of_malformed {acc : List Nat} {ls : List OutLine}
    (h : OutLine.malformed ∈ ls) :
    loadLedgerAux acc ls = .error .malformedRecord := by
  induction ls generalizing acc with
  | nil => cases h
  | cons l rest ih =>
    cases l with
    | malformed => rfl
    | record r =>
      rcases List.mem_cons.mp h with h' | h'
      · cases h'
      · exact ih h'

theorem loadLedger_ok_mem {ls : List OutLine} {s : List Nat}
    (h : loadLedger ls = .ok s) :
    ∀ x, x ∈ s ↔ ∃ r, OutLine.record r ∈ ls ∧ r.unit_id = x := by
  intro x
  rw [loadLedgerAux_ok_mem h x]
  simp

theorem loadLedger_ok_nodup {ls : List OutLine} {s : List Nat}
    (h : loadLedger ls = .ok s) : s.Nodup :=
  loadLedgerAux_ok_nodup List.nodup_nil h

/-! ## Step lemmas unfolding one iteration of the controller loop -/

theorem runLoop_nil (cfg : Config) (f : AlignFn) (d q idx : Nat) (aligned : List Nat) :
    runLoop cfg f d q idx aligned [] = ⟨[], [], .ok aligned⟩ := rfl

theorem runLoop_cons_offset {cfg : Config} (f : AlignFn) {d q idx : Nat}
    (aligned : List Nat) (l : InLine) (rest : List InLine) (h : idx < cfg.offset) :
    runLoop cfg f d q idx aligned (l :: rest)
      = runLoop cfg f d q (idx + 1) aligned rest := by
  simp [runLoop, h]

theorem runLoop_cons_malformed {cfg : Config} (f : AlignFn) {d q idx : Nat}
    (aligned : List Nat) (rest : List InLine) (h : ¬ idx < cfg.offset) :
    runLoop cfg f d q idx aligned (.malformed :: rest)
      = ⟨[], [], .error .malformedRecord⟩ := by
  simp [runLoop, h]

theorem runLoop_cons_done {cfg : Config} (f : AlignFn) {d q idx : Nat}
    {aligned : List Nat} {t : Talk} (rest : List InLine)
    (h : ¬ idx < cfg.offset) (ht : t.id ∈ aligned) :
    runLoop cfg f d q idx aligned (.good t :: rest)
      = runLoop cfg f d q (idx + 1) aligned rest := by
  simp [runLoop, h, ht]

theorem runLoop_cons_nosrc {cfg : Config} (f : AlignFn) {d q idx : Nat}
    {aligned : List Nat} {t : Talk} (rest : List InLine)
    (h : ¬ idx < cfg.offset) (ht : t.id ∉ aligned)
    (hs : getLang t.transcript cfg.src_lang = none) :
    runLoop cfg f d q idx aligned (.good t :: rest)
      = ⟨[], [], .error .missingLanguage⟩ := by
  simp [runLoop, h, ht, hs]

theorem runLoop_cons_notgt {cfg : Config} (f : AlignFn) {d q idx : Nat}
    {aligned : List Nat} {t : Talk} (rest : List InLine) {s : String}
    (h : ¬ idx < cfg.offset) (ht : t.id ∉ aligned)
    (hs : getLang t.transcript cfg.src_lang = some s)
    (hg : getLang t.transcript cfg.tgt_lang = none) :
    runLoop cfg f d q idx aligned (.good t :: rest)
      = ⟨[], [], .error .missingLanguage⟩ := by
  simp [runLoop, h, ht, hs, hg]

theorem runLoop_cons_proc {cfg : Config} (f : AlignFn) {d q idx : Nat}
    {aligned : List Nat} {t : Talk} (rest : List InLine) {s g : String}
    (h : ¬ idx < cfg.offset) (ht : t.id ∉ aligned)
    (hs : getLang t.transcript cfg.src_lang = some s)
    (hg : getLang t.transcript cfg.tgt_lang = some g) :
    runLoop cfg f d q idx aligned (.good t :: rest)
      = if d + q ≤ (insertSet t.id aligned).length then
          ⟨mkOutRecords cfg t (f s g), [⟨idx, t, s, g⟩], .ok (insertSet t.id aligned)⟩
        else
          ⟨mkOutRecords cfg t (f s g)
              ++ (runLoop cfg f d q (idx + 1) (insertSet t.id aligned) rest).written,
            ⟨idx, t, s, g⟩
              :: (runLoop cfg f d q (idx + 1) (insertSet t.id aligned) rest).processed,
            (runLoop cfg f d q (idx + 1) (insertSet t.id aligned) rest).outcome⟩ := by
  simp [runLoop, h, ht, hs, hg]

/-! ## Invariants of the controller loop, by induction on the input lines -/

/-- Soundness of the collaborator-invocation trace: every processed entry
sits at a position at or past the offset, is the good line found there, has
its two documents extracted by `getLang`, and its unit id was not in the
ledger the loop started from. -/
theorem runLoop_processed_sound {cfg : Config} {f : AlignFn} {d q : Nat} :
    ∀ (ls : List InLine) (idx : Nat) (aligned : List Nat) (e : ProcEntry),
      e ∈ (runLoop cfg f d q idx aligned ls).processed →
      cfg.offset ≤ e.pos ∧ idx ≤ e.pos
        ∧ ls[e.pos - idx]? = some (.good e.talk)
        ∧ getLang e.talk.transcript cfg.src_lang = some e.srcDoc
        ∧ getLang e.talk.transcript cfg.tgt_lang = some e.tgtDoc
        ∧ e.talk.id ∉ aligned := by
  intro ls
  induction ls with
  | nil => intro idx aligned e he; cases he
  | cons l rest ih =>
    intro idx aligned e he
    by_cases hofs : idx < cfg.offset
    · rw [runLoop_cons_offset f aligned l rest hofs] at he
      obtain ⟨h1, h2, h3, h4, h5, h6⟩ := ih (idx + 1) aligned e he
      refine ⟨h1, by omega, ?_, h4, h5, h6⟩
      have hidx : e.pos - idx = (e.pos - (idx + 1)) + 1 := by omega
      rw [hidx, List.getElem?_cons_succ]
      exact h3
    · cases l with
      | malformed =>
        rw [runLoop_cons_malformed f aligned rest hofs] at he
        cases he
      | good t =>
        by_cases ht : t.id ∈ aligned
        · rw [runLoop_cons_done f rest hofs ht] at he
          obtain ⟨h1, h2, h3, h4, h5, h6⟩ := ih (idx + 1) aligned e he
          refine ⟨h1, by omega, ?_, h4, h5, h6⟩
          have hidx : e.pos - idx = (e.pos - (idx + 1)) + 1 := by omega
          rw [hidx, List.getElem?_cons_succ]
          exact h3
        · cases hs : getLang t.transcript cfg.src_lang with
          | none =>
            rw [runLoop_cons_nosrc f rest hofs ht hs] at he
            cases he
          | some s =>
            cases hg : getLang t.transcript cfg.tgt_lang with
            | none =>
              rw [runLoop_cons_notgt f rest hofs ht hs hg] at he
              cases he
            | some g =>
              rw [runLoop_cons_proc f rest hofs ht hs hg] at he
              by_cases hbrk : d + q ≤ (insertSet t.id aligned).length
              · rw [if_pos hbrk] at he
                simp only [List.mem_singleton] at he
                subst he
                exact ⟨Nat.le_of_not_lt hofs, Nat.le_refl idx, by simp, hs, hg, ht⟩
              · rw [if_neg hbrk] at he
                simp only [List.mem_cons] at he
                rcases he with rfl | he
                · exact ⟨Nat.le_of_not_lt hofs, Nat.le_refl idx, by simp, hs, hg, ht⟩
                · obtain ⟨h1, h2, h3, h4, h5, h6⟩ := ih (idx + 1) (insertSet t.id aligned) e he
                  refine ⟨h1, by omega, ?_, h4, h5,
                    fun hc => h6 (mem_insertSet.mpr (Or.inr hc))⟩
                  have hidx : e.pos - idx = (e.pos - (idx + 1)) + 1 := by omega
                  rw [hidx, List.getElem?_cons_succ]
                  exact h3

/-- The file appends of a run are exactly the per-unit batches of the
processed units, in processing order: one contiguous block of records per
collaborator invocation. -/
theorem runLoop_written_eq {cfg : Config} {f : AlignFn} {d q : Nat} :
    ∀ (ls : List InLine) (idx : Nat) (aligned : List Nat),
      (runLoop cfg f d q idx aligned ls).written
        = ((runLoop cfg f d q idx aligned ls).processed.map
            (fun e => mkOutRecords cfg e.talk (f e.srcDoc e.tgtDoc))).flatten := by
  intro ls
  induction ls with
  | nil => intro idx aligned; rfl
  | cons l rest ih =>
    intro idx aligned
    by_cases hofs : idx < cfg.offset
    · rw [runLoop_cons_offset f aligned l rest hofs]
      exact ih (idx + 1) aligned
    · cases l with
      | malformed => rw [runLoop_cons_malformed f aligned rest hofs]; rfl
      | good t =>
        by_cases ht : t.id ∈ aligned
        · rw [runLoop_cons_done f rest hofs ht]
          exact ih (idx + 1) aligned
        · cases hs : getLang t.transcript cfg.src_lang with
          | none => rw [runLoop_cons_nosrc f rest hofs ht hs]; rfl
          | some s =>
            cases hg : getLang t.transcript cfg.tgt_lang with
            | none => rw [runLoop_cons_notgt f rest hofs ht hs hg]; rfl
            | some g =>
              rw [runLoop_cons_proc f rest hofs ht hs hg]
              by_cases hbrk : d + q ≤ (insertSet t.id aligned).length
              · rw [if_pos hbrk]; simp
              · rw [if_neg hbrk]
                simp only [List.map_cons, List.flatten]
                rw [ih (idx + 1) (insertSet t.id aligned)]

/-- Characterization of a normally terminating run: the initial ledger is
contained in the final one, every final entry is either initial or the id of
a processed unit, each processed unit's id made it into the final ledger,
and the ledger grew by exactly one entry per processed unit (so only new
completions count toward the quota). -/
theorem runLoop_ok_props {cfg : Config} {f : AlignFn} {d q : Nat} :
    ∀ (ls : List InLine) (idx : Nat) (aligned final : List Nat),
      (runLoop cfg f d q idx aligned ls).outcome = .ok final →
      (∀ x ∈ aligned, x ∈ final)
        ∧ (∀ x ∈ final, x ∈ aligned
            ∨ ∃ e ∈ (runLoop cfg f d q idx aligned ls).processed, e.talk.id = x)
        ∧ final.length
            = aligned.length + (runLoop cfg f d q idx aligned ls).processed.length
        ∧ (∀ e ∈ (runLoop cfg f d q idx aligned ls).processed, e.talk.id ∈ final) := by
  intro ls
  induction ls with
  | nil =>
    intro idx aligned final hfin
    cases hfin
    exact ⟨fun x hx => hx, fun x hx => Or.inl hx, rfl, fun e he => absurd he (List.not_mem_nil e)⟩
  | cons l rest ih =>
    intro idx aligned final hfin
    by_cases hofs : idx < cfg.offset
    · rw [runLoop_cons_offset f aligned l rest hofs] at hfin ⊢
      exact ih (idx + 1) aligned final hfin
    · cases l with
      | malformed =>
        rw [runLoop_cons_malformed f aligned rest hofs] at hfin
        cases hfin
      | good t =>
        by_cases ht : t.id ∈ aligned
        · rw [runLoop_cons_done f rest hofs ht] at hfin ⊢
          exact ih (idx + 1) aligned final hfin
        · cases hs : getLang t.transcript cfg.src_lang with
          | none =>
            rw [runLoop_cons_nosrc f rest hofs ht hs] at hfin
            cases hfin
          | some s =>
            cases hg : getLang t.transcript cfg.tgt_lang with
            | none =>
              rw [runLoop_cons_notgt f rest hofs ht hs hg] at hfin
              cases hfin
            | some g =>
              rw [runLoop_cons_proc f rest hofs ht hs hg] at hfin ⊢
              rw [insertSet_of_not_mem ht] at hfin ⊢
              by_cases hbrk : d + q ≤ (t.id :: aligned).length
              · rw [if_pos hbrk] at hfin ⊢
                cases hfin
                refine ⟨fun x hx => List.mem_cons_of_mem _ hx, ?_, rfl, ?_⟩
                · intro x hx
                  rcases List.mem_cons.mp hx with rfl | hx
                  · exact Or.inr ⟨⟨idx, t, s, g⟩, List.mem_singleton.mpr rfl, rfl⟩
                  · exact Or.inl hx
                · intro e he
                  rcases List.mem_singleton.mp he with rfl
                  exact List.mem_cons_self _ _
              · rw [if_neg hbrk] at hfin ⊢
                obtain ⟨ih1, ih2, ih3, ih4⟩ := ih (idx + 1) (t.id :: aligned) final hfin
                refine ⟨fun x hx => ih1 x (List.mem_cons_of_mem _ hx), ?_, ?_, ?_⟩
                · intro x hx
                  rcases ih2 x hx with hx' | ⟨e, he, rfl⟩
                  · rcases List.mem_cons.mp hx' with rfl | hx''
                    · exact Or.inr ⟨⟨idx, t, s, g⟩, List.mem_cons_self _ _, rfl⟩
                    · exact Or.inl hx''
                  · exact Or.inr ⟨e, List.mem_cons_of_mem _ he, rfl⟩
                · simp only [List.length_cons] at ih3 ⊢
                  omega
                · intro e he
                  rcases List.mem_cons.mp he with rfl | he'
                  · exact ih1 t.id (List.mem_cons_self _ _)
                  · exact ih4 e he'

/-- Every record of a per-unit batch carries the owning unit's id. -/
theorem mkOutRecords_unit_id {cfg : Config} {t : Talk} {pairs : List (String × String)}
    {rec : OutRecord} (h : rec ∈ mkOutRecords cfg t pairs) : rec.unit_id = t.id := by
  obtain ⟨pr, _, rfl⟩ := List.mem_map.mp h
  rfl

/-- A prefix of lines living entirely before the offset is skipped without
being parsed at all: the loop continues past it with untouched state. -/
theorem runLoop_skip_prefix {cfg : Config} {f : AlignFn} {d q : Nat} :
    ∀ (pre ls : List InLine) (idx : Nat) (aligned : List Nat),
      (∀ i, i < pre.length → idx + i < cfg.offset) →
      runLoop cfg f d q idx aligned (pre ++ ls)
        = runLoop cfg f d q (idx + pre.length) aligned ls := by
  intro pre
  induction pre with
  | nil => intro ls idx aligned _; simp
  | cons l pre ih =>
    intro ls idx aligned h
    have h0 : idx < cfg.offset := by simpa using h 0 (by simp)
    rw [List.cons_append, runLoop_cons_offset f aligned l (pre ++ ls) h0,
      ih ls (idx + 1) aligned fun i hi => by
        have := h (i + 1) (by simpa using Nat.succ_lt_succ hi)
        omega]
    congr 1
    simp [Nat.add_comm, Nat.add_assoc, Nat.add_left_comm]

/-- If every line at or past the offset is a unit whose id is already in the
ledger, the loop walks the whole input doing nothing: no collaborator call,
no write, ledger unchanged. -/
theorem runLoop_all_done {cfg : Config} {f : AlignFn} {d q : Nat} :
    ∀ (ls : List InLine) (idx : Nat) (aligned : List Nat),
      (∀ i, cfg.offset ≤ idx + i →
        ∀ t, ls[i]? = some (InLine.good t) → t.id ∈ aligned) →
      (∀ i, i < ls.length → cfg.offset ≤ idx + i →
        ∃ t, ls[i]? = some (InLine.good t)) →
      runLoop cfg f d q idx aligned ls = ⟨[], [], .ok aligned⟩ := by
  intro ls
  induction ls with
  | nil => intro idx aligned _ _; rfl
  | cons l rest ih =>
    intro idx aligned hdone hgood
    by_cases hofs : idx < cfg.offset
    · rw [runLoop_cons_offset f aligned l rest hofs]
      exact ih (idx + 1) aligned
        (fun i hi t hit => hdone (i + 1) (by omega) t (by simpa using hit))
        (fun i hi hofs' => by
          simpa using hgood (i + 1) (by simpa using Nat.succ_lt_succ hi) (by omega))
    · obtain ⟨t, hl⟩ := hgood 0 (by simp) (by omega)
      simp only [List.getElem?_cons_zero, Option.some.injEq] at hl
      subst hl
      have ht : t.id ∈ aligned := hdone 0 (by omega) t (by simp)
      rw [runLoop_cons_done f rest hofs ht]
      exact ih (idx + 1) aligned
        (fun i hi t' hit => hdone (i + 1) (by omega) t' (by simpa using hit))
        (fun i hi hofs' => by
          simpa using hgood (i + 1) (by simpa using Nat.succ_lt_succ hi) (by omega))

/-- Coverage: if every line at or past the offset is a well-formed unit with
both configured languages present, and the quota leaves room for one new
completion per input line, the run ends normally and the id of every unit at
or past the offset ends up in the final ledger. -/
theorem runLoop_covers {cfg : Config} {f : AlignFn} {d q : Nat} :
    ∀ (ls : List InLine) (idx : Nat) (aligned : List Nat),
      (∀ i, i < ls.length → cfg.offset ≤ idx + i →
        ∃ t s g, ls[i]? = some (InLine.good t)
          ∧ getLang t.transcript cfg.src_lang = some s
          ∧ getLang t.transcript cfg.tgt_lang = some g) →
      aligned.length + ls.length ≤ d + q →
      ∃ final, (runLoop cfg f d q idx aligned ls).outcome = .ok final
        ∧ (∀ x ∈ aligned, x ∈ final)
        ∧ (∀ i t, ls[i]? = some (InLine.good t) → cfg.offset ≤ idx + i →
            t.id ∈ final) := by
  intro ls
  induction ls with
  | nil =>
    intro idx aligned _ _
    exact ⟨aligned, rfl, fun x hx => hx, fun i t hit => by simp at hit⟩
  | cons l rest ih =>
    intro idx aligned hgood hq
    have hq' : aligned.length + rest.length ≤ d + q := by
      simp only [List.length_cons] at hq
      omega
    have hgood' : ∀ i, i < rest.length → cfg.offset ≤ (idx + 1) + i →
        ∃ t s g, rest[i]? = some (InLine.good t)
          ∧ getLang t.transcript cfg.src_lang = some s
          ∧ getLang t.transcript cfg.tgt_lang = some g := by
      intro i hi hofs'
      have := hgood (i + 1) (by simpa using Nat.succ_lt_succ hi) (by omega)
      simpa using this
    by_cases hofs : idx < cfg.offset
    · rw [runLoop_cons_offset f aligned l rest hofs]
      obtain ⟨final, h1, h2, h3⟩ := ih (idx + 1) aligned hgood' hq'
      refine ⟨final, h1, h2, ?_⟩
      intro i t hit hofs'
      cases i with
      | zero => omega
      | succ j => exact h3 j t (by simpa using hit) (by omega)
    · obtain ⟨t, s, g, hl, hs, hg⟩ := hgood 0 (by simp) (by omega)
      simp only [List.getElem?_cons_zero, Option.some.injEq] at hl
      subst hl
      by_cases ht : t.id ∈ aligned
      · rw [runLoop_cons_done f rest hofs ht]
        obtain ⟨final, h1, h2, h3⟩ := ih (idx + 1) aligned hgood' hq'
        refine ⟨final, h1, h2, ?_⟩
        intro i t' hit hofs'
        cases i with
        | zero =>
          simp only [List.getElem?_cons_zero, Option.some.injEq,
            InLine.good.injEq] at hit
          subst hit
          exact h2 t.id ht
        | succ j => exact h3 j t' (by simpa using hit) (by omega)
      · rw [runLoop_cons_proc f rest hofs ht hs hg, insertSet_of_not_mem ht]
        by_cases hbrk : d + q ≤ (t.id :: aligned).length
        · have hrest : rest.length = 0 := by
            simp only [List.length_cons] at hq hbrk
            omega
          rw [List.length_eq_zero] at hrest
          subst hrest
          rw [if_pos hbrk]
          refine ⟨t.id :: aligned, rfl, fun x hx => List.mem_cons_of_mem _ hx, ?_⟩
          intro i t' hit hofs'
          cases i with
          | zero =>
            simp only [List.getElem?_cons_zero, Option.some.injEq,
              InLine.good.injEq] at hit
            subst hit
            exact List.mem_cons_self _ _
          | succ j => simp at hit
        · rw [if_neg hbrk]
          have hgood'' : ∀ i, i < rest.length → cfg.offset ≤ (idx + 1) + i →
              ∃ t' s' g', rest[i]? = some (InLine.good t')
                ∧ getLang t'.transcript cfg.src_lang = some s'
                ∧ getLang t'.transcript cfg.tgt_lang = some g' := hgood'
          obtain ⟨final, h1, h2, h3⟩ := ih (idx + 1) (t.id :: aligned) hgood''
            (by simp only [List.length_cons] at hq ⊢; omega)
          refine ⟨final, h1, fun x hx => h2 x (List.mem_cons_of_mem _ hx), ?_⟩
          intro i t' hit hofs'
          cases i with
          | zero =>
            simp only [List.getElem?_cons_zero, Option.some.injEq,
              InLine.good.injEq] at hit
            subst hit
            exact h2 t.id (List.mem_cons_self _ _)
          | succ j => exact h3 j t' (by simpa using hit) (by omega)

/-- Reaching a position: if every line of a prefix at or past the offset is
well-formed with both languages present, and the quota strictly exceeds what
the prefix could consume, the loop runs through the prefix and continues on
the remainder from some enlarged ledger; the prefix contributes only
records and invocations of its own units, and adds only its own units' ids
to the ledger. -/
theorem runLoop_reach {cfg : Config} {f : AlignFn} {d q : Nat} :
    ∀ (pre ls : List InLine) (idx : Nat) (aligned : List Nat),
      (∀ i, i < pre.length → cfg.offset ≤ idx + i →
        ∃ t s g, pre[i]? = some (InLine.good t)
          ∧ getLang t.transcript cfg.src_lang = some s
          ∧ getLang t.transcript cfg.tgt_lang = some g) →
      aligned.length + pre.length < d + q →
      ∃ aligned' w p,
        (∀ x ∈ aligned, x ∈ aligned')
        ∧ (∀ x ∈ aligned', x ∈ aligned
            ∨ ∃ (i : Nat) (t : Talk), pre[i]? = some (InLine.good t) ∧ t.id = x)
        ∧ aligned'.length ≤ aligned.length + pre.length
        ∧ runLoop cfg f d q idx aligned (pre ++ ls)
            = ⟨w ++ (runLoop cfg f d q (idx + pre.length) aligned' ls).written,
               p ++ (runLoop cfg f d q (idx + pre.length) aligned' ls).processed,
               (runLoop cfg f d q (idx + pre.length) aligned' ls).outcome⟩
        ∧ (∀ rec ∈ w, ∃ (i : Nat) (t : Talk), pre[i]? = some (InLine.good t) ∧ rec.unit_id = t.id)
        ∧ (∀ e ∈ p, e.pos < idx + pre.length) := by
  intro pre
  induction pre with
  | nil =>
    intro ls idx aligned _ _
    refine ⟨aligned, [], [], fun x hx => hx, fun x hx => Or.inl hx, by simp,
      by simp, ?_, ?_⟩
    · intro rec h
      cases h
    · intro e h
      cases h
  | cons l pre ih =>
    intro ls idx aligned hgood hq
    have hgood' : ∀ i, i < pre.length → cfg.offset ≤ (idx + 1) + i →
        ∃ t s g, pre[i]? = some (InLine.good t)
          ∧ getLang t.transcript cfg.src_lang = some s
          ∧ getLang t.transcript cfg.tgt_lang = some g := by
      intro i hi hofs'
      have := hgood (i + 1) (by simpa using Nat.succ_lt_succ hi) (by omega)
      simpa using this
    have hlen : idx + (l :: pre).length = (idx + 1) + pre.length := by
      simp only [List.length_cons]
      omega
    by_cases hofs : idx < cfg.offset
    · rw [List.cons_append, runLoop_cons_offset f aligned l (pre ++ ls) hofs]
      obtain ⟨aligned', w, p, ha1, ha2, ha3, heq, hw, hp⟩ :=
        ih ls (idx + 1) aligned hgood' (by simp only [List.length_cons] at hq; omega)
      refine ⟨aligned', w, p, ha1, ?_, ?_, ?_, ?_, ?_⟩
      · intro x hx
        rcases ha2 x hx with hx' | ⟨i, t, hit, rfl⟩
        · exact Or.inl hx'
        · exact Or.inr ⟨i + 1, t, by simpa using hit, rfl⟩
      · simp only [List.length_cons]
        omega
      · rw [hlen]
        exact heq
      · intro rec hrec
        obtain ⟨i, t, hit, hid⟩ := hw rec hrec
        exact ⟨i + 1, t, by simpa using hit, hid⟩
      · intro e he
        have := hp e he
        simp only [List.length_cons]
        omega
    · obtain ⟨t, s, g, hl, hs, hg⟩ := hgood 0 (by simp) (by omega)
      simp only [List.getElem?_cons_zero, Option.some.injEq] at hl
      subst hl
      by_cases ht : t.id ∈ aligned
      · rw [List.cons_append, runLoop_cons_done f (pre ++ ls) hofs ht]
        obtain ⟨aligned', w, p, ha1, ha2, ha3, heq, hw, hp⟩ :=
          ih ls (idx + 1) aligned hgood' (by simp only [List.length_cons] at hq; omega)
        refine ⟨aligned', w, p, ha1, ?_, ?_, ?_, ?_, ?_⟩
        · intro x hx
          rcases ha2 x hx with hx' | ⟨i, t', hit, rfl⟩
          · exact Or.inl hx'
          · exact Or.inr ⟨i + 1, t', by simpa using hit, rfl⟩
        · simp only [List.length_cons]
          omega
        · rw [hlen]
          exact heq
        · intro rec hrec
          obtain ⟨i, t', hit, hid⟩ := hw rec hrec
          exact ⟨i + 1, t', by simpa using hit, hid⟩
        · intro e he
          have := hp e he
          simp only [List.length_cons]
          omega
      · rw [List.cons_append, runLoop_cons_proc f (pre ++ ls) hofs ht hs hg,
          insertSet_of_not_mem ht]
        have hbrk : ¬ d + q ≤ (t.id :: aligned).length := by
          simp only [List.length_cons] at hq ⊢
          omega
        rw [if_neg hbrk]
        obtain ⟨aligned', w, p, ha1, ha2, ha3, heq, hw, hp⟩ :=
          ih ls (idx + 1) (t.id :: aligned) hgood'
            (by simp only [List.length_cons] at hq ⊢; omega)
        rw [heq]
        refine ⟨aligned', mkOutRecords cfg t (f s g) ++ w, ⟨idx, t, s, g⟩ :: p,
          ?_, ?_, ?_, ?_, ?_, ?_⟩
        · exact fun x hx => ha1 x (List.mem_cons_of_mem _ hx)
        · intro x hx
          rcases ha2 x hx with hx' | ⟨i, t', hit, rfl⟩
          · rcases List.mem_cons.mp hx' with rfl | hx''
            · exact Or.inr ⟨0, t, by simp, rfl⟩
            · exact Or.inl hx''
          · exact Or.inr ⟨i + 1, t', by simpa using hit, rfl⟩
        · simp only [List.length_cons] at ha3 ⊢
          omega
        · rw [hlen]
          simp [List.append_assoc]
        · intro rec hrec
          rcases List.mem_append.mp hrec with hrec' | hrec'
          · exact ⟨0, t, by simp, mkOutRecords_unit_id hrec'⟩
          · obtain ⟨i, t', hit, hid⟩ := hw rec hrec'
            exact ⟨i + 1, t', by simpa using hit, hid⟩
        · intro e he
          rcases List.mem_cons.mp he with rfl | he'
          · simp only [List.length_cons]
            omega
          · have := hp e he'
            simp only [List.length_cons]
            omega

/-- A run over fresh, well-formed, duplicate-free units with remaining quota
`d + q - |ledger|` processes exactly `min (d + q - |ledger|) n` units — the
leading ones — and the final ledger holds exactly the old ids plus the ids
of those units. -/
theorem runLoop_fresh {cfg : Config} {f : AlignFn} {d q : Nat} :
    ∀ (talks : List Talk) (idx : Nat) (aligned : List Nat),
      cfg.offset ≤ idx →
      (∀ t ∈ talks, (∃ s, getLang t.transcript cfg.src_lang = some s)
        ∧ (∃ g, getLang t.transcript cfg.tgt_lang = some g)) →
      (talks.map Talk.id).Nodup →
      (∀ t ∈ talks, t.id ∉ aligned) →
      aligned.length < d + q →
      ∃ final,
        (runLoop cfg f d q idx aligned (talks.map InLine.good)).outcome = .ok final
        ∧ (runLoop cfg f d q idx aligned (talks.map InLine.good)).processed.length
            = min (d + q - aligned.length) talks.length
        ∧ (∀ x, x ∈ final ↔ x ∈ aligned
            ∨ x ∈ (talks.take (d + q - aligned.length)).map Talk.id) := by
  intro talks
  induction talks with
  | nil =>
    intro idx aligned _ _ _ _ hq
    refine ⟨aligned, rfl, ?_, fun x => by simp⟩
    rw [show (List.map InLine.good []) = ([] : List InLine) from rfl, runLoop_nil]
    simp
  | cons t ts ih =>
    intro idx aligned hofs hlang hnodup hfresh hq
    have hofs' : ¬ idx < cfg.offset := by omega
    have ht : t.id ∉ aligned := hfresh t (List.mem_cons_self _ _)
    obtain ⟨⟨s, hs⟩, ⟨g, hg⟩⟩ := hlang t (List.mem_cons_self _ _)
    rw [List.map_cons, runLoop_cons_proc f (ts.map InLine.good) hofs' ht hs hg,
      insertSet_of_not_mem ht]
    by_cases hbrk : d + q ≤ (t.id :: aligned).length
    · rw [if_pos hbrk]
      have hrem : d + q - aligned.length = 1 := by
        simp only [List.length_cons] at hbrk
        omega
      refine ⟨t.id :: aligned, rfl, ?_, ?_⟩
      · simp [hrem]
      · intro x
        rw [hrem]
        simp [List.take_cons, or_comm]
    · rw [if_neg hbrk]
      have hnodup' : (ts.map Talk.id).Nodup := (List.nodup_cons.mp hnodup).2
      have htid : t.id ∉ ts.map Talk.id := (List.nodup_cons.mp hnodup).1
      obtain ⟨final, h1, h2, h3⟩ := ih (idx + 1) (t.id :: aligned) (by omega)
        (fun t' ht' => hlang t' (List.mem_cons_of_mem _ ht'))
        hnodup'
        (fun t' ht' => by
          intro hc
          rcases List.mem_cons.mp hc with hc' | hc'
          · exact htid (hc' ▸ List.mem_map_of_mem Talk.id ht')
          · exact hfresh t' (List.mem_cons_of_mem _ ht') hc')
        (by simp only [List.length_cons] at hbrk ⊢; omega)
      have hrem : d + q - aligned.length = (d + q - (t.id :: aligned).length) + 1 := by
        simp only [List.length_cons] at hbrk ⊢
        omega
      refine ⟨final, h1, ?_, ?_⟩
      · simp only [List.length_cons, h2, List.length_map]
        simp only [List.length_cons] at hbrk
        omega
      · intro x
        rw [h3 x, hrem]
        simp only [List.take_succ_cons, List.map_cons, List.mem_cons]
        tauto

/-! ## Unfolding `align_corpus` and list utilities -/

/-- When the completion ledger loads successfully, a run is the controller
loop started at position 0 from that ledger, with the effective quota, and
the final store is the initial one plus the appended records. -/
theorem align_corpus_eq_ok (cfg : Config) (f : AlignFn) (input : List InLine)
    (os : List OutLine) (A0 : List Nat) (nt : Option Nat)
    (hled : loadLedger os = .ok A0) :
    align_corpus cfg f input (some os) nt
      = ⟨os ++ (runLoop cfg f A0.length (effectiveQuota os nt) 0 A0 input).written.map
            OutLine.record,
         runLoop cfg f A0.length (effectiveQuota os nt) 0 A0 input⟩ := by
  simp only [align_corpus, ensureStore, hled]

theorem getElem_mem_take {α : Type} (l : List α) (k i : Nat)
    (hi : i < l.length) (hik : i < k) : l[i] ∈ l.take k := by
  have h1 : i < (l.take k).length := by
    simp only [List.length_take]
    omega
  have h2 : (l.take k)[i] = l[i] := List.getElem_take l
  rw [Eq.symm h2]
  exact List.getElem_mem h1

theorem mem_take_getElem {α : Type} (l : List α) (k : Nat) (a : α)
    (h : a ∈ l.take k) : ∃ i, ∃ hi : i < l.length, i < k ∧ l[i] = a := by
  obtain ⟨i, h1, h2⟩ := List.getElem_of_mem h
  have hlen : i < k ∧ i < l.length := by
    simp only [List.length_take] at h1
    omega
  refine ⟨i, hlen.2, hlen.1, ?_⟩
  have h3 : (l.take k)[i] = l[i] := List.getElem_take l
  rw [Eq.symm h3]
  exact h2

/-- Units at distinct positions of a duplicate-free-id input have distinct
ids. -/
theorem nodup_ids_getElem_ne (talks : List Talk)
    (h : (talks.map Talk.id).Nodup) {i j : Nat} (hi : i < talks.length)
    (hj : j < talks.length) (hne : i ≠ j) : talks[i].id ≠ talks[j].id := by
  intro heq
  have hi' : i < (talks.map Talk.id).length := by simpa using hi
  have hj' : j < (talks.map Talk.id).length := by simpa using hj
  have hinj := List.nodup_iff_injective_getElem.mp h
  have hval : (talks.map Talk.id)[i] = (talks.map Talk.id)[j] := by
    simpa using heq
  have := @hinj ⟨i, hi'⟩ ⟨j, hj'⟩ hval
  exact hne (congrArg Fin.val this)

/-! ## The claims -/

/-- C4: when no quota is specified, the effective quota equals the total
number of records (lines) currently present in the output store at the
start of the run; the whole run is identical to one invoked with that
record count as an explicit quota. -/
theorem default_quota_is_record_count (cfg : Config) (f : AlignFn)
    (input : List InLine) (output : Option (List OutLine)) (out0 : List OutLine) :
    effectiveQuota out0 none = out0.length
    ∧ align_corpus cfg f input output none
        = align_corpus cfg f input output (some (ensureStore output).length) :=
  ⟨rfl, rfl⟩

/-- C7: the completion-ledger load returns exactly the set of distinct
`unit_id` values of the output store's records; it returns the empty set on
an empty or absent store (the absent store being created empty), succeeds on
any store whose lines are all valid records, and fails with
`malformedRecord` as soon as the store contains an invalid line. -/
theorem loadLedger_spec :
    (ensureStore none = [] ∧ loadLedger (ensureStore none) = .ok [])
    ∧ (∀ (ls : List OutLine) (s : List Nat), loadLedger ls = .ok s →
        s.Nodup ∧ ∀ x, x ∈ s ↔ ∃ r, OutLine.record r ∈ ls ∧ r.unit_id = x)
    ∧ (∀ ls : List OutLine, OutLine.malformed ∈ ls →
        loadLedger ls = .error .malformedRecord)
    ∧ (∀ ls : List OutLine, (∀ l ∈ ls, ∃ r, l = OutLine.record r) →
        ∃ s, loadLedger ls = .ok s) := by
  refine ⟨⟨rfl, rfl⟩, ?_, ?_, ?_⟩
  · intro ls s h
    exact ⟨loadLedger_ok_nodup h, loadLedger_ok_mem h⟩
  · intro ls h
    exact loadLedgerAux_of_malformed h
  · intro ls h
    exact loadLedgerAux_of_all_record h

/-- Witness for C7 at concrete stores: a one-record store yields exactly
that record's id, a malformed store fails, a well-formed store succeeds. -/
theorem loadLedger_spec_witness :
    (([1] : List Nat).Nodup
      ∧ ∀ x, x ∈ ([1] : List Nat)
          ↔ ∃ r, OutLine.record r ∈ [OutLine.record rec1] ∧ r.unit_id = x)
    ∧ loadLedger [OutLine.malformed] = .error .malformedRecord
    ∧ ∃ s, loadLedger [OutLine.record rec1] = .ok s :=
  ⟨loadLedger_spec.2.1 [OutLine.record rec1] [1] (by decide),
   loadLedger_spec.2.2.1 [OutLine.malformed] (by decide),
   loadLedger_spec.2.2.2 [OutLine.record rec1]
     (by
       intro l hl
       rcases List.mem_singleton.mp hl with rfl
       exact ⟨rec1, rfl⟩)⟩

/-- C10: with no quota specified and an empty (or newly created) output
store, the effective quota is zero, yet — the stopping condition being
checked only after a unit completes — the first well-formed unit at or past
the offset is fully processed (aligned, its records appended, its id put in
the ledger) before the run stops. -/
theorem default_quota_empty_store_processes_one (cfg : Config) (f : AlignFn)
    (pre rest : List InLine) (t : Talk) (output : Option (List OutLine))
    (sdoc tdoc : String)
    (hout : ensureStore output = [])
    (hpre : pre.length = cfg.offset)
    (hs : getLang t.transcript cfg.src_lang = some sdoc)
    (hg : getLang t.transcript cfg.tgt_lang = some tdoc) :
    align_corpus cfg f (pre ++ InLine.good t :: rest) output none
      = ⟨(mkOutRecords cfg t (f sdoc tdoc)).map OutLine.record,
         ⟨mkOutRecords cfg t (f sdoc tdoc), [⟨cfg.offset, t, sdoc, tdoc⟩],
          .ok [t.id]⟩⟩ := by
  have hskip : runLoop cfg f 0 0 0 [] (pre ++ InLine.good t :: rest)
      = runLoop cfg f 0 0 (0 + pre.length) [] (InLine.good t :: rest) :=
    runLoop_skip_prefix pre (InLine.good t :: rest) 0 [] (fun i hi => by omega)
  have hofs : ¬ 0 + pre.length < cfg.offset := by omega
  have hstep := runLoop_cons_proc (d := 0) (q := 0) f rest hofs
    (List.not_mem_nil t.id) hs hg
  rw [insertSet_of_not_mem (List.not_mem_nil t.id)] at hstep
  rw [if_pos (by simp)] at hstep
  simp only [align_corpus, hout, loadLedger, loadLedgerAux, effectiveQuota,
    List.length_nil, hskip, hstep, List.nil_append]
  rw [show (0 : Nat) + pre.length = cfg.offset by omega]

/-- Witness for C10: one unit, no offset, absent store, default quota — the
unit is processed and its records written before the run stops. -/
theorem default_quota_empty_store_processes_one_witness :
    align_corpus cfg0 f1 [InLine.good t1] none none
      = ⟨(mkOutRecords cfg0 t1 [("hello", "hola")]).map OutLine.record,
         ⟨mkOutRecords cfg0 t1 [("hello", "hola")], [⟨0, t1, "hello", "hola"⟩],
          .ok [1]⟩⟩ :=
  default_quota_empty_store_processes_one cfg0 f1 [] [] t1 none "hello" "hola"
    rfl rfl (by decide) (by decide)

/-- C6 counterexample: two concrete input lines that falsify the claim that
every line failing to deserialize into a Work Unit aborts the run when
reached.  First, a line that does not parse at all, placed before the
offset, is reached by the iteration and skipped without being deserialized:
the run over `[malformed, good t2]` with offset 1 completes normally.
Second, a line with valid serialization and both parse-time fields but no
documents mapping — a missing required `TRANSCRIPT` field, parsed as
`tNoDocs` — whose unit id 5 is already completed in the output store, is
parsed and silently skipped at the ledger check (`src/align.py:59-60`): the
run succeeds without any error and processes nothing. -/
theorem malformed_or_incomplete_line_no_abort_counterexample :
    ((align_corpus ⟨"en", "es", 1⟩ f1 [InLine.malformed, InLine.good t2]
        (some []) (some 5)).run.outcome = .ok [2])
    ∧ ((align_corpus cfg0 f1 [InLine.good tNoDocs]
        (some [OutLine.record rec5]) (some 5)).run.outcome = .ok [5])
    ∧ ((align_corpus cfg0 f1 [InLine.good tNoDocs]
        (some [OutLine.record rec5]) (some 5)).run.processed = []) := by
  refine ⟨?_, ?_, ?_⟩ <;> decide

/-- C6 (amended): a line failing at parse time (invalid serialization, or a
missing `TALK-ID`/`TALK-NAME`) aborts the run with `malformedRecord`
whenever it sits at a position at or past the offset and the run reaches it
— nothing at or past it is processed, nothing retried.  Lines before the
offset are skipped without deserialization.  And a line lacking only the
documents mapping (`TRANSCRIPT`) deserializes into a unit: reached with its
id already completed, it is skipped silently and the run goes on to
terminate normally; only when selected for processing does it fail, and
then with `missingLanguage`, not `malformedRecord`. -/
theorem malformed_line_reached_aborts :
    (∀ (cfg : Config) (f : AlignFn) (pre rest : List InLine)
        (os : List OutLine) (A0 : List Nat) (Q : Nat),
      loadLedger os = .ok A0 →
      cfg.offset ≤ pre.length →
      (∀ i, i < pre.length → cfg.offset ≤ i →
        ∃ t s g, pre[i]? = some (InLine.good t)
          ∧ getLang t.transcript cfg.src_lang = some s
          ∧ getLang t.transcript cfg.tgt_lang = some g) →
      pre.length < Q →
      (align_corpus cfg f (pre ++ InLine.malformed :: rest) (some os)
          (some Q)).run.outcome = .error .malformedRecord
      ∧ ∀ e ∈ (align_corpus cfg f (pre ++ InLine.malformed :: rest) (some os)
          (some Q)).run.processed, e.pos < pre.length)
    ∧ (∀ (cfg : Config) (f : AlignFn) (pre : List InLine) (t : Talk)
        (os : List OutLine) (A0 : List Nat) (Q : Nat),
      loadLedger os = .ok A0 →
      cfg.offset ≤ pre.length →
      (∀ i, i < pre.length → cfg.offset ≤ i →
        ∃ t' s g, pre[i]? = some (InLine.good t')
          ∧ getLang t'.transcript cfg.src_lang = some s
          ∧ getLang t'.transcript cfg.tgt_lang = some g) →
      pre.length < Q →
      t.id ∈ A0 →
      ∃ final,
        (align_corpus cfg f (pre ++ [InLine.good t]) (some os)
            (some Q)).run.outcome = .ok final
        ∧ ∀ e ∈ (align_corpus cfg f (pre ++ [InLine.good t]) (some os)
            (some Q)).run.processed, e.pos < pre.length)
    ∧ (∀ (cfg : Config) (f : AlignFn) (pre rest : List InLine) (t : Talk)
        (os : List OutLine) (A0 : List Nat) (Q : Nat),
      loadLedger os = .ok A0 →
      cfg.offset ≤ pre.length →
      (∀ i, i < pre.length → cfg.offset ≤ i →
        ∃ t' s g, pre[i]? = some (InLine.good t')
          ∧ getLang t'.transcript cfg.src_lang = some s
          ∧ getLang t'.transcript cfg.tgt_lang = some g) →
      pre.length < Q →
      getLang t.transcript cfg.src_lang = none →
      t.id ∉ A0 →
      (∀ (i : Nat) (t' : Talk), pre[i]? = some (InLine.good t') →
        t'.id ≠ t.id) →
      (align_corpus cfg f (pre ++ InLine.good t :: rest) (some os)
          (some Q)).run.outcome = .error .missingLanguage) := by
  refine ⟨?_, ?_, ?_⟩
  · intro cfg f pre rest os A0 Q hled hofs hgood hq
    rw [align_corpus_eq_ok cfg f _ os A0 (some Q) hled]
    obtain ⟨aligned', w, p, _, _, _, heq, _, hp⟩ :=
      runLoop_reach (f := f) (d := A0.length) (q := effectiveQuota os (some Q))
        pre (InLine.malformed :: rest) 0 A0
        (fun i hi hofs' => hgood i hi (by omega))
        (by simp only [effectiveQuota]; omega)
    have hofs' : ¬ 0 + pre.length < cfg.offset := by omega
    rw [heq, runLoop_cons_malformed f aligned' rest hofs']
    refine ⟨rfl, ?_⟩
    intro e he
    simp only [List.append_nil] at he
    have := hp e he
    omega
  · intro cfg f pre t os A0 Q hled hofs hgood hq hdone
    rw [align_corpus_eq_ok cfg f _ os A0 (some Q) hled]
    obtain ⟨aligned', w, p, ha1, _, _, heq, _, hp⟩ :=
      runLoop_reach (f := f) (d := A0.length) (q := effectiveQuota os (some Q))
        pre [InLine.good t] 0 A0
        (fun i hi hofs' => hgood i hi (by omega))
        (by simp only [effectiveQuota]; omega)
    have hofs' : ¬ 0 + pre.length < cfg.offset := by omega
    have htid : t.id ∈ aligned' := ha1 t.id hdone
    rw [heq, runLoop_cons_done f [] hofs' htid, runLoop_nil]
    refine ⟨aligned', rfl, ?_⟩
    intro e he
    simp only [List.append_nil] at he
    have := hp e he
    omega
  · intro cfg f pre rest t os A0 Q hled hofs hgood hq hmiss hnotdone hnotpre
    rw [align_corpus_eq_ok cfg f _ os A0 (some Q) hled]
    obtain ⟨aligned', w, p, _, ha2, _, heq, _, _⟩ :=
      runLoop_reach (f := f) (d := A0.length) (q := effectiveQuota os (some Q))
        pre (InLine.good t :: rest) 0 A0
        (fun i hi hofs' => hgood i hi (by omega))
        (by simp only [effectiveQuota]; omega)
    have hofs' : ¬ 0 + pre.length < cfg.offset := by omega
    have htid : t.id ∉ aligned' := by
      intro hmem
      rcases ha2 t.id hmem with h | ⟨i, t', hit, hid⟩
      · exact hnotdone h
      · exact hnotpre i t' hit hid
    rw [heq, runLoop_cons_nosrc f rest hofs' htid hmiss]

/-- Witness for C6 (amended), one concrete run per part: a malformed second
line aborts the run; a unit without documents whose id is already completed
is skipped and the run ends normally; the same unit on a fresh store is
selected and fails with `missingLanguage`. -/
theorem malformed_line_reached_aborts_witness :
    ((align_corpus cfg0 f1 [InLine.good t1, InLine.malformed] (some [])
        (some 5)).run.outcome = .error .malformedRecord
      ∧ ∀ e ∈ (align_corpus cfg0 f1 [InLine.good t1, InLine.malformed]
          (some []) (some 5)).run.processed, e.pos < 1)
    ∧ (∃ final, (align_corpus cfg0 f1 [InLine.good tNoDocs]
          (some [OutLine.record rec5]) (some 5)).run.outcome = .ok final
        ∧ ∀ e ∈ (align_corpus cfg0 f1 [InLine.good tNoDocs]
            (some [OutLine.record rec5]) (some 5)).run.processed,
            e.pos < ([] : List InLine).length)
    ∧ (align_corpus cfg0 f1 [InLine.good tNoDocs] (some [])
        (some 1)).run.outcome = .error .missingLanguage :=
  ⟨malformed_line_reached_aborts.1 cfg0 f1 [InLine.good t1] [] [] [] 5 rfl
      (by decide)
      (fun i hi hofs' => by
        have hi0 : i = 0 := by
          simp only [List.length_singleton] at hi
          omega
        subst hi0
        exact ⟨t1, "hello", "hola", by decide, by decide, by decide⟩)
      (by decide),
   malformed_line_reached_aborts.2.1 cfg0 f1 [] tNoDocs [OutLine.record rec5]
      [5] 5 (by decide) (by decide)
      (fun i hi hofs' => by
        simp only [List.length_nil] at hi
        omega)
      (by decide) (by decide),
   malformed_line_reached_aborts.2.2 cfg0 f1 [] [] tNoDocs [] [] 1 rfl
      (by decide)
      (fun i hi hofs' => by
        simp only [List.length_nil] at hi
        omega)
      (by decide) (by decide) (by decide)
      (fun i t' hit => by
        rw [List.getElem?_nil] at hit
        cases hit)⟩

/-- C2 counterexample: with quota `k = 0` given explicitly on a store with
zero prior completions, the claim demands that no unit gain a ledger entry;
but the stopping condition is only checked after a completion, so the run
processes one unit and its id enters the ledger. -/
theorem quota_zero_processes_one_counterexample :
    (align_corpus cfg0 f1 [InLine.good t1] (some []) (some 0)).run.outcome
        = .ok [1]
    ∧ (align_corpus cfg0 f1 [InLine.good t1] (some []) (some 0)).run.processed.length
        = 1 := by
  constructor <;> decide

/-- C2 (amended): for every quota `k ≥ 1` given explicitly on an output
store with zero prior completions and offset 0, over well-formed units with
distinct ids, exactly `min k n` units gain ledger entries — the leading
ones — and units at positions at or beyond `k` stay absent from the
ledger. -/
theorem quota_exact_on_fresh_store (cfg : Config) (f : AlignFn)
    (talks : List Talk) (k : Nat)
    (hoff : cfg.offset = 0) (hk : 1 ≤ k)
    (hlang : ∀ t ∈ talks, (∃ s, getLang t.transcript cfg.src_lang = some s)
      ∧ ∃ g, getLang t.transcript cfg.tgt_lang = some g)
    (hnodup : (talks.map Talk.id).Nodup) :
    ∃ final,
      (align_corpus cfg f (talks.map InLine.good) (some [])
          (some k)).run.outcome = .ok final
      ∧ (align_corpus cfg f (talks.map InLine.good) (some [])
          (some k)).run.processed.length = min k talks.length
      ∧ final.length = min k talks.length
      ∧ (∀ i, ∀ hi : i < talks.length, i < k → talks[i].id ∈ final)
      ∧ (∀ i, ∀ hi : i < talks.length, k ≤ i → talks[i].id ∉ final) := by
  rw [align_corpus_eq_ok cfg f _ [] [] (some k) rfl]
  simp only [List.length_nil, effectiveQuota]
  obtain ⟨final, hf1, hf2, hf3⟩ :=
    runLoop_fresh (f := f) (d := 0) (q := k) talks 0 []
      (by omega)
      hlang hnodup (fun t _ => List.not_mem_nil t.id)
      (by simp only [List.length_nil]; omega)
  simp only [Nat.zero_add, List.length_nil, Nat.sub_zero] at hf1 hf2 hf3
  have hlen := (runLoop_ok_props (f := f) (d := 0) (q := k)
    (talks.map InLine.good) 0 [] final hf1).2.2.1
  refine ⟨final, hf1, hf2, ?_, ?_, ?_⟩
  · rw [hlen, hf2]
    simp
  · intro i hi hik
    rw [hf3]
    refine Or.inr (List.mem_map.mpr ⟨talks[i], ?_, rfl⟩)
    exact getElem_mem_take talks k i hi hik
  · intro i hi hki hmem
    rcases (hf3 _).mp hmem with hmem' | hmem'
    · exact absurd hmem' (List.not_mem_nil _)
    · obtain ⟨y, hy, hyid⟩ := List.mem_map.mp hmem'
      obtain ⟨j, hj, hjk, rfl⟩ := mem_take_getElem talks k y hy
      exact nodup_ids_getElem_ne talks hnodup hj hi (by omega) hyid

/-- Witness for C2 (amended): three units, quota 2 — exactly the first two
ids enter the ledger, the third stays absent. -/
theorem quota_exact_on_fresh_store_witness :
    ∃ final,
      (align_corpus cfg0 f1 [InLine.good t1, InLine.good t2, InLine.good t3]
          (some []) (some 2)).run.outcome = .ok final
      ∧ (align_corpus cfg0 f1 [InLine.good t1, InLine.good t2, InLine.good t3]
          (some []) (some 2)).run.processed.length
          = min 2 ([t1, t2, t3] : List Talk).length
      ∧ final.length = min 2 ([t1, t2, t3] : List Talk).length
      ∧ (∀ i, ∀ hi : i < ([t1, t2, t3] : List Talk).length, i < 2 →
          ([t1, t2, t3] : List Talk)[i].id ∈ final)
      ∧ (∀ i, ∀ hi : i < ([t1, t2, t3] : List Talk).length, 2 ≤ i →
          ([t1, t2, t3] : List Talk)[i].id ∉ final) :=
  quota_exact_on_fresh_store cfg0 f1 [t1, t2, t3] 2 rfl (by omega)
    (by
      intro t ht
      rcases List.mem_cons.mp ht with rfl | ht
      · exact ⟨⟨"hello", by decide⟩, ⟨"hola", by decide⟩⟩
      rcases List.mem_cons.mp ht with rfl | ht
      · exact ⟨⟨"bye", by decide⟩, ⟨"adios", by decide⟩⟩
      rcases List.mem_cons.mp ht with rfl | ht
      · exact ⟨⟨"yes", by decide⟩, ⟨"si", by decide⟩⟩
      · exact absurd ht (List.not_mem_nil t))
    (by decide)

/-- C3: for every run with some offset, no unit at a position strictly
before the offset is ever processed; only processed units consume quota
(the ledger grows by exactly the processed count); and a pre-offset unit's
id — if not already completed and not shared with any other line — never
enters the final ledger, nor do any records carry it. -/
theorem offset_units_never_processed (cfg : Config) (f : AlignFn)
    (input : List InLine) (os : List OutLine) (A0 : List Nat) (nt : Option Nat)
    (hled : loadLedger os = .ok A0) :
    (∀ e ∈ (align_corpus cfg f input (some os) nt).run.processed,
        cfg.offset ≤ e.pos)
    ∧ (∀ final, (align_corpus cfg f input (some os) nt).run.outcome = .ok final →
        final.length
          = A0.length + (align_corpus cfg f input (some os) nt).run.processed.length)
    ∧ (∀ p t, p < cfg.offset → input[p]? = some (InLine.good t) →
        t.id ∉ A0 →
        (∀ j t', input[j]? = some (InLine.good t') → j ≠ p → t'.id ≠ t.id) →
        (∀ final, (align_corpus cfg f input (some os) nt).run.outcome = .ok final →
          t.id ∉ final)
        ∧ ∀ rec ∈ (align_corpus cfg f input (some os) nt).run.written,
            rec.unit_id ≠ t.id) := by
  rw [align_corpus_eq_ok cfg f input os A0 nt hled]
  refine ⟨?_, ?_, ?_⟩
  · intro e he
    exact (runLoop_processed_sound input 0 A0 e he).1
  · intro final hfin
    exact (runLoop_ok_props input 0 A0 final hfin).2.2.1
  · intro p t hp hline hnotdone hdistinct
    have hproc : ∀ e ∈ (runLoop cfg f A0.length (effectiveQuota os nt) 0 A0
        input).processed, e.talk.id ≠ t.id := by
      intro e he
      obtain ⟨h1, _, h3, _, _, _⟩ := runLoop_processed_sound input 0 A0 e he
      rw [Nat.sub_zero] at h3
      exact hdistinct e.pos e.talk h3 (by omega)
    constructor
    · intro final hfin hmem
      rcases (runLoop_ok_props input 0 A0 final hfin).2.1 t.id hmem
        with h | ⟨e, he, hid⟩
      · exact hnotdone h
      · exact hproc e he hid
    · intro rec hrec
      rw [runLoop_written_eq input 0 A0] at hrec
      obtain ⟨batch, hbatch, hrecb⟩ := List.mem_flatten.mp hrec
      obtain ⟨e, he, rfl⟩ := List.mem_map.mp hbatch
      rw [mkOutRecords_unit_id hrecb]
      exact hproc e he

/-- Witness for C3: offset 1 over two units — the first is never processed,
its id stays out of the ledger and out of every written record. -/
theorem offset_units_never_processed_witness :
    (∀ e ∈ (align_corpus ⟨"en", "es", 1⟩ f1 [InLine.good t1, InLine.good t2]
        (some []) (some 5)).run.processed, (1 : Nat) ≤ e.pos)
    ∧ (∀ final, (align_corpus ⟨"en", "es", 1⟩ f1 [InLine.good t1, InLine.good t2]
        (some []) (some 5)).run.outcome = .ok final → t1.id ∉ final) := by
  have h := offset_units_never_processed ⟨"en", "es", 1⟩ f1
    [InLine.good t1, InLine.good t2] [] [] (some 5) rfl
  refine ⟨h.1, ?_⟩
  refine (h.2.2 0 t1 (by decide) (by decide) (by decide) ?_).1
  intro j t' hj hne
  have hj2 : j = 1 := by
    have hlen : j < 2 := by
      by_contra hge
      rw [List.getElem?_eq_none (by simp; omega)] at hj
      cases hj
    omega
  subst hj2
  simp only [List.getElem?_cons_succ, List.getElem?_cons_zero,
    Option.some.injEq, InLine.good.injEq] at hj
  subst hj
  decide

/-- C5: a selected unit (past the offset, not already completed, reached
before the quota stops the run) that lacks the configured source- or
target-language document aborts the run with `missingLanguage`; no record
with its id is written, and the ledger derived from the resulting store
does not contain its id — the unit is never silently marked complete. -/
theorem missing_language_aborts (cfg : Config) (f : AlignFn)
    (pre rest : List InLine) (t : Talk) (os : List OutLine) (A0 : List Nat)
    (Q : Nat)
    (hled : loadLedger os = .ok A0)
    (hofs : cfg.offset ≤ pre.length)
    (hgood : ∀ i, i < pre.length → cfg.offset ≤ i →
      ∃ t' s g, pre[i]? = some (InLine.good t')
        ∧ getLang t'.transcript cfg.src_lang = some s
        ∧ getLang t'.transcript cfg.tgt_lang = some g)
    (hq : pre.length < Q)
    (hmiss : getLang t.transcript cfg.src_lang = none
      ∨ getLang t.transcript cfg.tgt_lang = none)
    (hnotdone : t.id ∉ A0)
    (hnotpre : ∀ (i : Nat) (t' : Talk), pre[i]? = some (InLine.good t') → t'.id ≠ t.id) :
    (align_corpus cfg f (pre ++ InLine.good t :: rest) (some os)
        (some Q)).run.outcome = .error .missingLanguage
    ∧ (∀ rec ∈ (align_corpus cfg f (pre ++ InLine.good t :: rest) (some os)
        (some Q)).run.written, rec.unit_id ≠ t.id)
    ∧ (∀ s', loadLedger (align_corpus cfg f (pre ++ InLine.good t :: rest)
        (some os) (some Q)).store = .ok s' → t.id ∉ s') := by
  rw [align_corpus_eq_ok cfg f _ os A0 (some Q) hled]
  obtain ⟨aligned', w, p, _, ha2, _, heq, hw, _⟩ :=
    runLoop_reach (f := f) (d := A0.length)
      (q := effectiveQuota os (some Q))
      pre (InLine.good t :: rest) 0 A0
      (fun i hi hofs' => hgood i hi (by omega))
      (by simp only [effectiveQuota]; omega)
  have hofs' : ¬ 0 + pre.length < cfg.offset := by omega
  have htid : t.id ∉ aligned' := by
    intro hmem
    rcases ha2 t.id hmem with h | ⟨i, t', hit, hid⟩
    · exact hnotdone h
    · exact hnotpre i t' hit hid
  have hwid : ∀ rec ∈ w, rec.unit_id ≠ t.id := by
    intro rec hrec
    obtain ⟨i, t', hit, hid⟩ := hw rec hrec
    rw [hid]
    exact hnotpre i t' hit
  have hstep : runLoop cfg f A0.length (effectiveQuota os (some Q))
      (0 + pre.length) aligned' (InLine.good t :: rest)
      = ⟨[], [], .error .missingLanguage⟩ := by
    rcases hmiss with hm | hm
    · exact runLoop_cons_nosrc f rest hofs' htid hm
    · cases hsrc : getLang t.transcript cfg.src_lang with
      | none => exact runLoop_cons_nosrc f rest hofs' htid hsrc
      | some s => exact runLoop_cons_notgt f rest hofs' htid hsrc hm
  rw [heq, hstep]
  simp only [List.append_nil]
  refine ⟨by trivial, hwid, ?_⟩
  intro s' hs' hmem
  rw [loadLedger_ok_mem hs' t.id] at hmem
  obtain ⟨r, hr, hrid⟩ := hmem
  rcases List.mem_append.mp hr with hr' | hr'
  · exact hnotdone ((loadLedger_ok_mem hled t.id).mpr ⟨r, hr', hrid⟩)
  · obtain ⟨rec, hrec, hreq⟩ := List.mem_map.mp hr'
    injection hreq with hreq'
    subst hreq'
    exact hwid rec hrec hrid

/-- Witness for C5: a unit lacking the target language at position 0 — the
run aborts with `missingLanguage` and writes nothing for it. -/
theorem missing_language_aborts_witness :
    (align_corpus cfg0 f1 [InLine.good tBad] (some []) (some 1)).run.outcome
        = .error .missingLanguage
    ∧ (∀ rec ∈ (align_corpus cfg0 f1 [InLine.good tBad] (some [])
        (some 1)).run.written, rec.unit_id ≠ tBad.id)
    ∧ (∀ s', loadLedger (align_corpus cfg0 f1 [InLine.good tBad] (some [])
        (some 1)).store = .ok s' → tBad.id ∉ s') :=
  missing_language_aborts cfg0 f1 [] [] tBad [] [] 1 rfl (by decide)
    (fun i hi hofs' => by
      simp only [List.length_nil] at hi
      omega)
    (by decide) (Or.inr (by decide)) (by decide)
    (fun i t' hit => by
      rw [List.getElem?_nil] at hit
      cases hit)

/-- C8: for every run, the appended records are exactly the per-unit
batches of the processed units, contiguously in processing order — one
batch written per completed unit, immediately after its alignment — and
each batch holds exactly one record per aligned pair, carrying the owning
unit's id and name and the pair's texts under the uppercased configured
language codes. -/
theorem written_records_per_unit (cfg : Config) (f : AlignFn)
    (input : List InLine) (output : Option (List OutLine)) (nt : Option Nat) :
    (align_corpus cfg f input output nt).run.written
      = ((align_corpus cfg f input output nt).run.processed.map
          (fun e => mkOutRecords cfg e.talk (f e.srcDoc e.tgtDoc))).flatten
    ∧ ∀ e ∈ (align_corpus cfg f input output nt).run.processed,
        mkOutRecords cfg e.talk (f e.srcDoc e.tgtDoc)
          = (f e.srcDoc e.tgtDoc).map (fun pr =>
              { unit_id := e.talk.id
                unit_name := e.talk.name
                srcKey := cfg.src_lang.toUpper
                srcText := pr.1
                tgtKey := cfg.tgt_lang.toUpper
                tgtText := pr.2
                attr := none }) := by
  cases hled : loadLedger (ensureStore output) with
  | error err =>
    have heq : align_corpus cfg f input output nt
        = ⟨ensureStore output, ⟨[], [], .error err⟩⟩ := by
      simp only [align_corpus, hled]
    rw [heq]
    exact ⟨rfl, fun e he => absurd he (List.not_mem_nil e)⟩
  | ok A0 =>
    have heq : align_corpus cfg f input output nt
        = ⟨ensureStore output
            ++ (runLoop cfg f A0.length (effectiveQuota (ensureStore output) nt)
                  0 A0 input).written.map OutLine.record,
           runLoop cfg f A0.length (effectiveQuota (ensureStore output) nt)
             0 A0 input⟩ := by
      simp only [align_corpus, hled]
    rw [heq]
    exact ⟨runLoop_written_eq input 0 A0, fun e _ => rfl⟩

/-- Witness for C8: the batch for a processed unit is the map sending each
aligned pair to its record. -/
theorem written_records_per_unit_witness :
    mkOutRecords cfg0 t1 (f1 "hello" "hola")
      = (f1 "hello" "hola").map (fun pr =>
          { unit_id := t1.id
            unit_name := t1.name
            srcKey := cfg0.src_lang.toUpper
            srcText := pr.1
            tgtKey := cfg0.tgt_lang.toUpper
            tgtText := pr.2
            attr := none }) :=
  (written_records_per_unit cfg0 f1 [InLine.good t1] (some []) (some 5)).2
    ⟨0, t1, "hello", "hola"⟩ (by decide)

/-- C9: in the spec-modelled attribute-aware Result Writer, every record
written for a unit carries that unit's categorical attribute unchanged when
the `include_attribute` toggle is enabled, and no record carries it when
disabled; the disabled writer coincides with the `src/align.py` writer. -/
theorem attribute_propagation (b : Bool) (cfg : Config) (t : Talk)
    (pairs : List (String × String)) :
    (b = true → ∀ rec ∈ mkOutRecordsAttr b cfg t pairs, rec.attr = t.attr)
    ∧ (b = false → ∀ rec ∈ mkOutRecordsAttr b cfg t pairs, rec.attr = none)
    ∧ mkOutRecordsAttr false cfg t pairs = mkOutRecords cfg t pairs := by
  refine ⟨?_, ?_, rfl⟩
  · rintro rfl rec hrec
    obtain ⟨pr, _, rfl⟩ := List.mem_map.mp hrec
    rfl
  · rintro rfl rec hrec
    obtain ⟨pr, _, rfl⟩ := List.mem_map.mp hrec
    rfl

/-- Witness for C9: with the toggle on, the concrete unit's attribute is on
every record; with it off, the writer equals the `src/align.py` one. -/
theorem attribute_propagation_witness :
    (∀ rec ∈ mkOutRecordsAttr true cfg0 t1 [("hello", "hola")],
        rec.attr = t1.attr)
    ∧ mkOutRecordsAttr false cfg0 t1 [("hello", "hola")]
        = mkOutRecords cfg0 t1 [("hello", "hola")] :=
  ⟨(attribute_propagation true cfg0 t1 [("hello", "hola")]).1 rfl,
   (attribute_propagation false cfg0 t1 [("hello", "hola")]).2.2⟩

/-- C1 counterexample: with a collaborator that yields zero pairs for a
unit, processing it appends no records, so its id never reaches the
store-derived ledger; a second run over the resulting store — unbounded
quota, identical input — invokes the collaborator on the very same unit
again, contradicting "running the controller twice over the same input with
an unbounded quota never processes any unit twice". -/
theorem second_run_reprocesses_counterexample :
    (align_corpus cfg0 f0 [InLine.good t1] (some []) (some 5)).run.processed
        = [⟨0, t1, "hello", "hola"⟩]
    ∧ (align_corpus cfg0 f0 [InLine.good t1]
        (some (align_corpus cfg0 f0 [InLine.good t1] (some []) (some 5)).store)
        (some 5)).run.processed = [⟨0, t1, "hello", "hola"⟩] := by
  constructor <;> decide

/-- C1 (amended): a unit whose id is in the completion ledger loaded at the
start of a run is skipped — the collaborator is never invoked on it, no
written record carries its id, and the quota counts only this run's new
completions.  Consequently, provided the collaborator yields at least one
aligned pair per invocation, running the controller twice over the same
well-formed input with a quota at least the input size makes the second run
an empty delta: it processes nothing, writes nothing, and leaves the store
unchanged. -/
theorem completed_skip_and_idempotence :
    (∀ (cfg : Config) (f : AlignFn) (input : List InLine) (os : List OutLine)
        (A0 : List Nat) (nt : Option Nat), loadLedger os = .ok A0 →
      (∀ e ∈ (align_corpus cfg f input (some os) nt).run.processed,
          e.talk.id ∉ A0)
      ∧ (∀ rec ∈ (align_corpus cfg f input (some os) nt).run.written,
          rec.unit_id ∉ A0)
      ∧ (∀ final,
          (align_corpus cfg f input (some os) nt).run.outcome = .ok final →
          final.length = A0.length
            + (align_corpus cfg f input (some os) nt).run.processed.length))
    ∧ (∀ (cfg : Config) (f : AlignFn) (input : List InLine) (os : List OutLine)
        (Q : Nat),
        (∀ l ∈ os, ∃ r, l = OutLine.record r) →
        (∀ i, i < input.length → cfg.offset ≤ i →
          ∃ t s g, input[i]? = some (InLine.good t)
            ∧ getLang t.transcript cfg.src_lang = some s
            ∧ getLang t.transcript cfg.tgt_lang = some g) →
        (∀ s g, f s g ≠ []) →
        input.length ≤ Q →
        (align_corpus cfg f input
            (some (align_corpus cfg f input (some os) (some Q)).store)
            (some Q)).run.processed = []
        ∧ (align_corpus cfg f input
            (some (align_corpus cfg f input (some os) (some Q)).store)
            (some Q)).run.written = []
        ∧ (align_corpus cfg f input
            (some (align_corpus cfg f input (some os) (some Q)).store)
            (some Q)).store
          = (align_corpus cfg f input (some os) (some Q)).store) := by
  constructor
  · intro cfg f input os A0 nt hled
    rw [align_corpus_eq_ok cfg f input os A0 nt hled]
    refine ⟨?_, ?_, ?_⟩
    · intro e he
      exact (runLoop_processed_sound input 0 A0 e he).2.2.2.2.2
    · intro rec hrec hc
      rw [runLoop_written_eq input 0 A0] at hrec
      obtain ⟨batch, hbatch, hrecb⟩ := List.mem_flatten.mp hrec
      obtain ⟨e, he, rfl⟩ := List.mem_map.mp hbatch
      rw [mkOutRecords_unit_id hrecb] at hc
      exact (runLoop_processed_sound input 0 A0 e he).2.2.2.2.2 hc
    · intro final hfin
      exact (runLoop_ok_props input 0 A0 final hfin).2.2.1
  · intro cfg f input os Q hos hgood hne hQ
    obtain ⟨A0, hled1⟩ : ∃ s, loadLedger os = .ok s :=
      loadLedgerAux_of_all_record hos
    have hrw1 := align_corpus_eq_ok cfg f input os A0 (some Q) hled1
    obtain ⟨final1, hfin1, hsub1, hcov1⟩ :=
      runLoop_covers (f := f) (d := A0.length)
        (q := effectiveQuota os (some Q)) input 0 A0
        (fun i hi hofs => hgood i hi (by omega))
        (by simp only [effectiveQuota]; omega)
    have hos1 : ∀ l ∈ os
        ++ (runLoop cfg f A0.length (effectiveQuota os (some Q)) 0 A0
              input).written.map OutLine.record,
        ∃ r, l = OutLine.record r := by
      intro l hl
      rcases List.mem_append.mp hl with h | h
      · exact hos l h
      · obtain ⟨rec, _, rfl⟩ := List.mem_map.mp h
        exact ⟨rec, rfl⟩
    obtain ⟨A1, hled2⟩ : ∃ s, loadLedger (os
        ++ (runLoop cfg f A0.length (effectiveQuota os (some Q)) 0 A0
              input).written.map OutLine.record) = .ok s :=
      loadLedgerAux_of_all_record hos1
    have hkey : ∀ i, cfg.offset ≤ 0 + i →
        ∀ t, input[i]? = some (InLine.good t) → t.id ∈ A1 := by
      intro i hofs t hit
      have h1 : t.id ∈ final1 := hcov1 i t hit hofs
      have h2 := (runLoop_ok_props input 0 A0 final1 hfin1).2.1 t.id h1
      rw [loadLedger_ok_mem hled2 t.id]
      rcases h2 with h | ⟨e, he, hid⟩
      · obtain ⟨r, hr, hrid⟩ := (loadLedger_ok_mem hled1 t.id).mp h
        exact ⟨r, List.mem_append.mpr (Or.inl hr), hrid⟩
      · obtain ⟨pr, hpr⟩ :=
          List.exists_mem_of_ne_nil _ (hne e.srcDoc e.tgtDoc)
        have hrec : mkOutRecord cfg e.talk pr
            ∈ (runLoop cfg f A0.length (effectiveQuota os (some Q)) 0 A0
                input).written := by
          rw [runLoop_written_eq input 0 A0]
          exact List.mem_flatten.mpr
            ⟨mkOutRecords cfg e.talk (f e.srcDoc e.tgtDoc),
             List.mem_map_of_mem _ he, List.mem_map_of_mem _ hpr⟩
        refine ⟨mkOutRecord cfg e.talk pr,
          List.mem_append.mpr (Or.inr (List.mem_map_of_mem _ hrec)), ?_⟩
        rw [show (mkOutRecord cfg e.talk pr).unit_id = e.talk.id from rfl, hid]
    rw [hrw1]
    dsimp only
    rw [align_corpus_eq_ok cfg f input _ A1 (some Q) hled2]
    have hr2 : runLoop cfg f A1.length
        (effectiveQuota (os
          ++ (runLoop cfg f A0.length (effectiveQuota os (some Q)) 0 A0
                input).written.map OutLine.record) (some Q)) 0 A1 input
        = ⟨[], [], .ok A1⟩ :=
      runLoop_all_done input 0 A1 hkey
        (fun i hi hofs => by
          obtain ⟨t, s, g, ht, _, _⟩ := hgood i hi (by omega)
          exact ⟨t, ht⟩)
    rw [hr2]
    exact ⟨rfl, rfl, by simp⟩

/-- Witness for C1 (amended): a unit already recorded in the store is
skipped, and over a fresh store a second run with the same input is an
empty delta. -/
theorem completed_skip_and_idempotence_witness :
    (∀ e ∈ (align_corpus cfg0 f1 [InLine.good t1] (some [OutLine.record rec1])
        (some 5)).run.processed, e.talk.id ∉ ([1] : List Nat))
    ∧ (align_corpus cfg0 f1 [InLine.good t1]
        (some (align_corpus cfg0 f1 [InLine.good t1] (some []) (some 5)).store)
        (some 5)).run.processed = [] :=
  ⟨(completed_skip_and_idempotence.1 cfg0 f1 [InLine.good t1]
      [OutLine.record rec1] [1] (some 5) (by decide)).1,
   (completed_skip_and_idempotence.2 cfg0 f1 [InLine.good t1] [] 5
      (fun l hl => absurd hl (List.not_mem_nil l))
      (fun i hi hofs => by
        have hi0 : i = 0 := by
          simp only [List.length_singleton] at hi
          omega
        subst hi0
        exact ⟨t1, "hello", "hola", by decide, by decide, by decide⟩)
      (fun s g => by simp [f1])
      (by decide)).1⟩

end Align
